import Mathlib

set_option maxHeartbeats 1000000

attribute [local semireducible] Rat.mul Rat.inv Rat.add Rat.sub Rat.ofScientific

/-
Shallow embedding of src/scripts/classify_entries.py.

Strings are modelled by the Lean String type (lists of characters), the
Python float similarity scores by exact rationals, and the dynamic failure
of subscripting a None best match by an Option result.  Whitespace and
lowercasing are modelled on the ASCII range, matching the behaviour of the
source on its data.
-/

/-- Whitespace test used throughout: the ASCII whitespace characters
recognized by the regex class backslash-s and by str.strip in the source
(space, tab, newline, carriage return, form feed, vertical tab). -/
def isWS (c : Char) : Bool :=
  decide (c.toNat = 32 ∨ c.toNat = 9 ∨ c.toNat = 10 ∨ c.toNat = 13 ∨ c.toNat = 12 ∨ c.toNat = 11)

/-- ASCII lowercasing of one character, modelling str.lower of Python:
uppercase letters shift by 32, every other character is kept. -/
def lowerChar (c : Char) : Char :=
  if 65 ≤ c.toNat ∧ c.toNat ≤ 90 then Char.ofNat (c.toNat + 32) else c

/-- Replacement of every maximal run of whitespace by one single space, as
performed by re.sub on the pattern of one-or-more whitespace in the source.
The Boolean flag records whether the scan is inside a whitespace run whose
single space has already been emitted. -/
def collapseWS : Bool → List Char → List Char
  | _, [] => []
  | inRun, c :: rest =>
    if isWS c then
      if inRun then collapseWS true rest else ' ' :: collapseWS true rest
    else
      c :: collapseWS false rest

/-- Removal of trailing whitespace characters. -/
def dropTrail : List Char → List Char
  | [] => []
  | c :: rest =>
    let r := dropTrail rest
    if r.isEmpty && isWS c then [] else c :: r

/-- Removal of leading and trailing whitespace, as str.strip of Python. -/
def stripWS (l : List Char) : List Char := dropTrail (l.dropWhile isWS)

/-- Character-level body of normalize_text from the source: lowercase,
then strip, then collapse whitespace runs, in the exact order of the code
line re.sub applied to str(text).lower().strip(). -/
def normChars (l : List Char) : List Char := collapseWS false (stripWS (l.map lowerChar))

/-- normalize_text of the source, on string input. -/
def normalize_text (s : String) : String := ⟨normChars s.data⟩

/-- A dynamically typed Python value reaching normalize_text: either a
string, or any non-string value. -/
inductive PyVal where
  | str (s : String)
  | nonstr
deriving DecidableEq

/-- normalize_text of the source on a dynamic argument: the isinstance
guard returns the empty string on any non-string input. -/
def normalize_text_dyn : PyVal → String
  | PyVal.nonstr => ⟨[]⟩
  | PyVal.str s => normalize_text s

/-- Modelled from the words of the spec for comparison with the code:
lowercase, collapse any run of whitespace characters to a single space,
then strip leading and trailing whitespace. -/
def normalizeSpec (s : String) : String := ⟨stripWS (collapseWS false (s.data.map lowerChar))⟩

/-- Python str.split with no separator: the maximal nonempty runs of
non-whitespace characters, in order. -/
def splitWS (l : List Char) : List (List Char) :=
  (l.foldr (fun c acc =>
    if isWS c then [] :: acc
    else
      match acc with
      | [] => [[c]]
      | w :: ws => (c :: w) :: ws) []).filter (fun w => !w.isEmpty)

/-- The token set built by calculate_similarity from one argument:
set(normalize_text(t).split()). -/
def tokenFinset (t : String) : Finset (List Char) := (splitWS (normalize_text t).data).toFinset

/-- calculate_similarity of the source: Jaccard similarity of the two token
sets, 0 when either set is empty, with the additional guard of the source
that a zero-size union also yields 0. -/
def calculate_similarity (t1 t2 : String) : ℚ :=
  if tokenFinset t1 = ∅ ∨ tokenFinset t2 = ∅ then 0
  else if 0 < (tokenFinset t1 ∪ tokenFinset t2).card then
    ((tokenFinset t1 ∩ tokenFinset t2).card : ℚ) / ((tokenFinset t1 ∪ tokenFinset t2).card : ℚ)
  else 0

/-- One row of the classification reference table with its four columns. -/
structure ClassificationRow where
  accountType : String
  primary : String
  secondary : String
  tertiary : String
deriving DecidableEq

/-- The per-row score of find_best_match: the maximum of the similarities
of the entry text against the three classification levels of the row. -/
def rowScore (entry : String) (r : ClassificationRow) : ℚ :=
  max (max (calculate_similarity entry r.primary) (calculate_similarity entry r.secondary))
    (calculate_similarity entry r.tertiary)

/-- The row loop of find_best_match: best match and running maximum,
updated only on a strictly greater score. -/
def fbmLoop (entry : String) : List ClassificationRow → Option ClassificationRow → ℚ →
    Option ClassificationRow × ℚ
  | [], best, maxSim => (best, maxSim)
  | r :: rest, best, maxSim =>
    if maxSim < rowScore entry r then fbmLoop entry rest (some r) (rowScore entry r)
    else fbmLoop entry rest best maxSim

/-- find_best_match of the source: the entry is normalized once, the best
match starts as None and the running maximum as 0. -/
def find_best_match (entry : String) (classifications : List ClassificationRow) :
    Option ClassificationRow × ℚ :=
  fbmLoop (normalize_text entry) classifications none 0

/-- Modelled from the words of the claim for comparison with the code: the
same loop, but each comparison receives the raw entry name with no
up-front normalization. -/
def find_best_match_raw (entry : String) (classifications : List ClassificationRow) :
    Option ClassificationRow × ℚ :=
  fbmLoop entry classifications none 0

/-- One input record of classify_entries. -/
structure Entry where
  name : String
  accountType : String
deriving DecidableEq

/-- One output record of classify_entries. -/
structure ClassificationResult where
  entryName : String
  accountType : String
  primaryClassification : String
  secondaryClassification : String
  tertiaryClassification : String
  confidence : ℚ
  masterSheet : String
deriving DecidableEq

/-- Python str.lower on a whole string. -/
def str_lower (s : String) : String := ⟨s.data.map lowerChar⟩

/-- The account-type filter of classify_entries: rows whose account type
equals the account type of the entry after lowercasing both. -/
def relevant_classifications (e : Entry) (table : List ClassificationRow) :
    List ClassificationRow :=
  table.filter (fun r => str_lower r.accountType == str_lower e.accountType)

/-- The body of the per-entry loop of classify_entries.  When the filtered
set is empty the UNKNOWN record is produced; otherwise the fields of the
best match are read, and reading the fields of a None best match raises a
TypeError in Python, modelled as none here. -/
def classify_entry (e : Entry) (table : List ClassificationRow) :
    Option ClassificationResult :=
  if (relevant_classifications e table).isEmpty then
    some ⟨e.name, e.accountType, "UNKNOWN", "UNKNOWN", "UNKNOWN", 0,
      e.accountType ++ " Master Sheet"⟩
  else
    match find_best_match e.name (relevant_classifications e table) with
    | (some b, confidence) =>
      some ⟨e.name, e.accountType, b.primary, b.secondary, b.tertiary, confidence,
        e.accountType ++ " Master Sheet"⟩
    | (none, _) => none

/-- classify_entries of the source over a batch of entries: the loop stops
with an uncaught exception as soon as one entry fails. -/
def classify_entries (entries : List Entry) (table : List ClassificationRow) :
    Option (List ClassificationResult) :=
  entries.mapM (fun e => classify_entry e table)

/-
Helper lemmas about the similarity function and the matcher loop.
-/

theorem tokenFinset_card_ne_zero (a : String) (h : tokenFinset a ≠ ∅) :
    (tokenFinset a).card ≠ 0 :=
  fun hc => h (Finset.card_eq_zero.mp hc)

theorem similarity_nonneg (a b : String) : 0 ≤ calculate_similarity a b := by
  unfold calculate_similarity
  split
  · exact le_refl 0
  · split
    · exact div_nonneg (Nat.cast_nonneg _) (Nat.cast_nonneg _)
    · exact le_refl 0

theorem similarity_le_one (a b : String) : calculate_similarity a b ≤ 1 := by
  unfold calculate_similarity
  split
  · exact zero_le_one
  · split
    · apply div_le_one_of_le₀
      · exact_mod_cast Finset.card_le_card
          ((Finset.inter_subset_left).trans Finset.subset_union_left)
      · exact Nat.cast_nonneg _
    · exact zero_le_one

theorem rowScore_nonneg (entry : String) (r : ClassificationRow) :
    0 ≤ rowScore entry r :=
  le_trans (similarity_nonneg entry r.tertiary) (le_max_right _ _)

theorem rowScore_le_one (entry : String) (r : ClassificationRow) :
    rowScore entry r ≤ 1 :=
  max_le (max_le (similarity_le_one entry r.primary) (similarity_le_one entry r.secondary))
    (similarity_le_one entry r.tertiary)

theorem fbmLoop_bounds (entry : String) (rows : List ClassificationRow)
    (best : Option ClassificationRow) (m : ℚ) (h0 : 0 ≤ m) (h1 : m ≤ 1) :
    0 ≤ (fbmLoop entry rows best m).2 ∧ (fbmLoop entry rows best m).2 ≤ 1 := by
  induction rows generalizing best m with
  | nil => exact ⟨h0, h1⟩
  | cons r rest ih =>
    simp only [fbmLoop]
    split
    · exact ih _ _ (rowScore_nonneg entry r) (rowScore_le_one entry r)
    · exact ih _ _ h0 h1

theorem fbmLoop_append (entry : String) (l1 l2 : List ClassificationRow)
    (best : Option ClassificationRow) (m : ℚ) :
    fbmLoop entry (l1 ++ l2) best m =
      fbmLoop entry l2 (fbmLoop entry l1 best m).1 (fbmLoop entry l1 best m).2 := by
  induction l1 generalizing best m with
  | nil => rfl
  | cons r rest ih =>
    simp only [List.cons_append, fbmLoop]
    split
    · exact ih _ _
    · exact ih _ _

theorem fbmLoop_no_update (entry : String) (rows : List ClassificationRow)
    (best : Option ClassificationRow) (m : ℚ)
    (h : ∀ r ∈ rows, rowScore entry r ≤ m) :
    fbmLoop entry rows best m = (best, m) := by
  induction rows with
  | nil => rfl
  | cons r rest ih =>
    simp only [fbmLoop]
    rw [if_neg (not_lt.mpr (h r (List.mem_cons_self r rest)))]
    exact ih fun q hq => h q (List.mem_cons_of_mem r hq)

theorem fbmLoop_max_lt (entry : String) (rows : List ClassificationRow)
    (best : Option ClassificationRow) (m bound : ℚ)
    (hrows : ∀ r ∈ rows, rowScore entry r < bound) (hm : m < bound) :
    (fbmLoop entry rows best m).2 < bound := by
  induction rows generalizing best m with
  | nil => exact hm
  | cons r rest ih =>
    simp only [fbmLoop]
    split
    · exact ih _ _ (fun q hq => hrows q (List.mem_cons_of_mem r hq))
        (hrows r (List.mem_cons_self r rest))
    · exact ih _ _ (fun q hq => hrows q (List.mem_cons_of_mem r hq)) hm

/-
Claim theorems.
-/

/-- C1 (code bug evidence): an entry whose non-empty candidate set has only
zero-score rows produces no ClassificationResult at all.  The filter keeps
the one Asset row, every similarity of the entry name against its three
labels is 0, find_best_match therefore returns a None best match with score
0, and classify_entries then fails reading the fields of None instead of
reporting a best-match row with confidence 0. -/
theorem c1_zero_score_candidates_crash :
    relevant_classifications ⟨"Widget Inventory", "Asset"⟩
        [⟨"Asset", "Cash", "Bank Accounts", "Deposits"⟩] =
      [⟨"Asset", "Cash", "Bank Accounts", "Deposits"⟩] ∧
    find_best_match ("Widget Inventory") [⟨"Asset", "Cash", "Bank Accounts", "Deposits"⟩] =
      (none, 0) ∧
    classify_entry ⟨"Widget Inventory", "Asset"⟩
      [⟨"Asset", "Cash", "Bank Accounts", "Deposits"⟩] = none := by
  decide

/-- C2 (code bug evidence): an entry sharing no token with any row of its
non-empty candidate set does not yield the all-UNKNOWN result with
confidence 0 that the claim describes: the per-entry computation fails
reading the fields of a None best match, and the whole batch is lost. -/
theorem c2_zero_overlap_crash :
    relevant_classifications ⟨"Office Chairs", "Liability"⟩
        [⟨"liability", "Loans Payable", "Long Term", "Mortgage"⟩] ≠ [] ∧
    classify_entry ⟨"Office Chairs", "Liability"⟩
      [⟨"liability", "Loans Payable", "Long Term", "Mortgage"⟩] = none ∧
    classify_entries [⟨"Office Chairs", "Liability"⟩]
      [⟨"liability", "Loans Payable", "Long Term", "Mortgage"⟩] = none := by
  decide

/-- C3 counterexample: two candidate rows with equal maximal score 0. The
claim says the earlier row is selected, but find_best_match selects no row
at all, because a score equal to the initial running maximum 0 never
triggers an update. -/
theorem c3_tie_at_zero_counterexample :
    rowScore (normalize_text ("zzz")) ⟨"Asset", "Cash", "Bank", "Deposits"⟩ =
        rowScore (normalize_text ("zzz")) ⟨"Asset", "Loan", "Debt", "Notes"⟩ ∧
    find_best_match ("zzz")
        [⟨"Asset", "Cash", "Bank", "Deposits"⟩, ⟨"Asset", "Loan", "Debt", "Notes"⟩] =
      (none, 0) ∧
    (find_best_match ("zzz")
        [⟨"Asset", "Cash", "Bank", "Deposits"⟩, ⟨"Asset", "Loan", "Debt", "Notes"⟩]).1 ≠
      some ⟨"Asset", "Cash", "Bank", "Deposits"⟩ := by
  decide

/-- C3 amended: when the maximal per-row score is positive, find_best_match
returns the first row attaining it, with that score: rows before it score
strictly lower, and a later row with an equal score never replaces it. -/
theorem c3_first_positive_max_wins (entry : String)
    (pre post : List ClassificationRow) (r : ClassificationRow)
    (hpre : ∀ p ∈ pre,
      rowScore (normalize_text entry) p < rowScore (normalize_text entry) r)
    (hpost : ∀ q ∈ post,
      rowScore (normalize_text entry) q ≤ rowScore (normalize_text entry) r)
    (hpos : 0 < rowScore (normalize_text entry) r) :
    find_best_match entry (pre ++ r :: post) =
      (some r, rowScore (normalize_text entry) r) := by
  unfold find_best_match
  rw [fbmLoop_append]
  have h2 : (fbmLoop (normalize_text entry) pre none 0).2 <
      rowScore (normalize_text entry) r :=
    fbmLoop_max_lt (normalize_text entry) pre none 0 _ hpre hpos
  simp only [fbmLoop]
  rw [if_pos h2]
  exact fbmLoop_no_update _ _ _ _ hpost

/-- Witness for the amended C3 theorem: two rows tie with score 1 on the
entry cash, and the first of them is selected. -/
theorem c3_first_positive_max_wins_witness :
    find_best_match ("cash")
        [⟨"Asset", "cash", "b1", "b2"⟩, ⟨"Asset", "cash", "b3", "b4"⟩] =
      (some ⟨"Asset", "cash", "b1", "b2"⟩,
        rowScore (normalize_text ("cash")) ⟨"Asset", "cash", "b1", "b2"⟩) :=
  c3_first_positive_max_wins ("cash") [] [⟨"Asset", "cash", "b3", "b4"⟩]
    ⟨"Asset", "cash", "b1", "b2"⟩ (by decide) (by decide) (by decide)

/-- C4 counterexample: the one-space string is a non-empty text, yet its
similarity with itself is 0 and not 1, because stripping empties it. -/
theorem c4_whitespace_counterexample :
    calculate_similarity (" ") (" ") = 0 ∧ (" ") ≠ ("") := by
  decide

/-- C4 amended: for every text whose normalization contains at least one
token (in particular any text with a non-whitespace character), the
similarity with itself equals 1. -/
theorem c4_self_similarity_one (a : String) (h : tokenFinset a ≠ ∅) :
    calculate_similarity a a = 1 := by
  have hc : (tokenFinset a).card ≠ 0 := tokenFinset_card_ne_zero a h
  unfold calculate_similarity
  rw [if_neg fun hor => h (hor.elim id id)]
  rw [Finset.inter_self, Finset.union_self, if_pos (Nat.pos_of_ne_zero hc)]
  exact div_self (by exact_mod_cast hc)

/-- Witness for the amended C4 theorem at the concrete text cash. -/
theorem c4_self_similarity_one_witness :
    tokenFinset ("cash") ≠ ∅ ∧ calculate_similarity ("cash") ("cash") = 1 :=
  ⟨by decide, c4_self_similarity_one ("cash") (by decide)⟩

/-- C5: when no classification row matches the account type of the entry
case-insensitively, including over the empty table, the result is the
UNKNOWN record with confidence exactly 0, produced directly by
classify_entries without running the matcher. -/
theorem c5_no_candidates_unknown (e : Entry) (table : List ClassificationRow)
    (h : relevant_classifications e table = []) :
    classify_entry e table =
      some ⟨e.name, e.accountType, "UNKNOWN", "UNKNOWN", "UNKNOWN", 0,
        e.accountType ++ " Master Sheet"⟩ := by
  unfold classify_entry
  rw [h]
  rfl

/-- Witness for C5 on the empty classification table. -/
theorem c5_no_candidates_unknown_witness :
    relevant_classifications ⟨"Cash in Bank", "Equity"⟩ [] = [] ∧
      classify_entry ⟨"Cash in Bank", "Equity"⟩ [] =
        some ⟨"Cash in Bank", "Equity", "UNKNOWN", "UNKNOWN", "UNKNOWN", 0,
          ("Equity") ++ " Master Sheet"⟩ :=
  ⟨rfl, c5_no_candidates_unknown ⟨"Cash in Bank", "Equity"⟩ [] rfl⟩

/-- C6: the candidate rows passed to the matcher are exactly the table rows
whose account type equals the account type of the entry after lowercasing
both sides; in particular a lowercase asset entry keeps an Asset row. -/
theorem c6_filter_case_insensitive :
    (∀ (e : Entry) (table : List ClassificationRow) (r : ClassificationRow),
      r ∈ relevant_classifications e table ↔
        r ∈ table ∧ str_lower r.accountType = str_lower e.accountType) ∧
    relevant_classifications ⟨"Cash in Bank", "asset"⟩
        [⟨"Asset", "Cash", "Bank Accounts", "Cash in Bank"⟩] =
      [⟨"Asset", "Cash", "Bank Accounts", "Cash in Bank"⟩] := by
  constructor
  · intro e table r
    simp [relevant_classifications, List.mem_filter]
  · decide

/-- C7: similarity is symmetric in its two arguments. -/
theorem c7_similarity_symmetric (a b : String) :
    calculate_similarity a b = calculate_similarity b a := by
  unfold calculate_similarity
  rw [Finset.inter_comm, Finset.union_comm]
  simp only [or_comm]

/-- C8: similarity is bounded in the unit interval, and consequently the
confidence field of every produced ClassificationResult is as well. -/
theorem c8_similarity_and_confidence_bounds :
    (∀ a b : String, 0 ≤ calculate_similarity a b ∧ calculate_similarity a b ≤ 1) ∧
    ∀ (e : Entry) (table : List ClassificationRow) (res : ClassificationResult),
      classify_entry e table = some res → 0 ≤ res.confidence ∧ res.confidence ≤ 1 := by
  refine ⟨fun a b => ⟨similarity_nonneg a b, similarity_le_one a b⟩, ?_⟩
  intro e table res h
  unfold classify_entry at h
  split at h
  · cases h
    exact ⟨le_refl 0, zero_le_one⟩
  · split at h
    · rename_i b confidence heq
      cases h
      have hb := fbmLoop_bounds (normalize_text e.name)
        (relevant_classifications e table) none 0 (le_refl 0) zero_le_one
      have hco : confidence =
          (find_best_match e.name (relevant_classifications e table)).2 := by
        rw [heq]
      rw [hco]
      exact hb
    · cases h

/-- Witness for C8: a concrete produced result whose confidence is 1, with
the hypothesis discharged by evaluation. -/
theorem c8_similarity_and_confidence_bounds_witness :
    0 ≤ (ClassificationResult.mk ("cash") ("asset") ("cash") ("x") ("y") 1
        ("asset Master Sheet")).confidence ∧
      (ClassificationResult.mk ("cash") ("asset") ("cash") ("x") ("y") 1
        ("asset Master Sheet")).confidence ≤ 1 :=
  c8_similarity_and_confidence_bounds.2 ⟨"cash", "asset"⟩ [⟨"Asset", "cash", "x", "y"⟩]
    ⟨"cash", "asset", "cash", "x", "y", 1, "asset Master Sheet"⟩ (by decide)

/-
Character-level lemmas about lowercasing and whitespace, used for the
normalization claims.
-/

theorem char_toNat_ofNat_of_lt {n : Nat} (h : n < 55296) : (Char.ofNat n).toNat = n := by
  unfold Char.ofNat
  rw [dif_pos (Or.inl h)]
  rfl

theorem lowerChar_toNat (c : Char) :
    (lowerChar c).toNat =
      if 65 ≤ c.toNat ∧ c.toNat ≤ 90 then c.toNat + 32 else c.toNat := by
  unfold lowerChar
  split
  · rename_i h
    exact char_toNat_ofNat_of_lt (by omega)
  · rfl

theorem lowerChar_eq_self (c : Char) (h : ¬(65 ≤ c.toNat ∧ c.toNat ≤ 90)) :
    lowerChar c = c := by
  unfold lowerChar
  rw [if_neg h]

theorem lowerChar_idem (c : Char) : lowerChar (lowerChar c) = lowerChar c := by
  by_cases hc : 65 ≤ c.toNat ∧ c.toNat ≤ 90
  · apply lowerChar_eq_self
    rw [lowerChar_toNat, if_pos hc]
    omega
  · rw [lowerChar_eq_self c hc]
    exact lowerChar_eq_self c hc

theorem isWS_lowerChar (c : Char) : isWS (lowerChar c) = isWS c := by
  unfold isWS
  rw [decide_eq_decide]
  have h := lowerChar_toNat c
  split at h <;> omega

theorem lowerChar_space : lowerChar ' ' = ' ' := by decide

/-
List-level unfolding lemmas for the normalization functions.
-/

theorem collapseWS_cons_ws_false (d : Char) (tail : List Char) (hd : isWS d = true) :
    collapseWS false (d :: tail) = ' ' :: collapseWS true tail := by
  simp only [collapseWS]
  rw [if_pos hd]
  simp

theorem collapseWS_cons_ws_true (d : Char) (tail : List Char) (hd : isWS d = true) :
    collapseWS true (d :: tail) = collapseWS true tail := by
  simp only [collapseWS]
  rw [if_pos hd]
  simp

theorem collapseWS_cons_not_ws (b : Bool) (d : Char) (tail : List Char)
    (hd : isWS d = false) :
    collapseWS b (d :: tail) = d :: collapseWS false tail := by
  simp only [collapseWS]
  rw [hd]
  rfl

theorem dropTrail_cons (d : Char) (tail : List Char) :
    dropTrail (d :: tail) =
      if ((dropTrail tail).isEmpty && isWS d) = true then [] else d :: dropTrail tail :=
  rfl

theorem collapseWS_ne_nil (b : Bool) (l : List Char) (c : Char) (hw : isWS c = false) :
    c ∈ l → collapseWS b l ≠ [] := by
  induction l generalizing b with
  | nil => intro hc; cases hc
  | cons d tail ih =>
    intro hc
    by_cases hd : isWS d = true
    · have hct : c ∈ tail := by
        rcases List.mem_cons.mp hc with h1 | h1
        · subst h1; rw [hw] at hd; cases hd
        · exact h1
      cases b
      · rw [collapseWS_cons_ws_false d tail hd]
        exact List.cons_ne_nil _ _
      · rw [collapseWS_cons_ws_true d tail hd]
        exact ih true hct
    · rw [collapseWS_cons_not_ws b d tail (Bool.eq_false_iff.mpr hd)]
      exact List.cons_ne_nil _ _

theorem dropTrail_ne_nil_mem (l : List Char) (h : dropTrail l ≠ []) :
    ∃ c ∈ dropTrail l, isWS c = false := by
  induction l with
  | nil => exact absurd rfl h
  | cons d tail ih =>
    rw [dropTrail_cons] at h ⊢
    by_cases hcond : ((dropTrail tail).isEmpty && isWS d) = true
    · rw [if_pos hcond] at h
      exact absurd rfl h
    · rw [if_neg hcond] at h ⊢
      rcases Bool.and_eq_false_iff.mp (Bool.eq_false_iff.mpr hcond) with h1 | h1
      · have htail : dropTrail tail ≠ [] := List.isEmpty_eq_false.mp h1
        rcases ih htail with ⟨c, hc, hwc⟩
        exact ⟨c, List.mem_cons_of_mem d hc, hwc⟩
      · exact ⟨d, List.mem_cons_self d _, h1⟩

theorem dropTrail_idem (l : List Char) : dropTrail (dropTrail l) = dropTrail l := by
  induction l with
  | nil => rfl
  | cons d tail ih =>
    rw [dropTrail_cons]
    by_cases hcond : ((dropTrail tail).isEmpty && isWS d) = true
    · rw [if_pos hcond]
      rfl
    · rw [if_neg hcond, dropTrail_cons, ih, if_neg hcond]

theorem dropWhile_collapseWS (b : Bool) (l : List Char) :
    (collapseWS b l).dropWhile isWS = collapseWS true (l.dropWhile isWS) := by
  induction l generalizing b with
  | nil => rfl
  | cons d tail ih =>
    by_cases hd : isWS d = true
    · have h1 : (d :: tail).dropWhile isWS = tail.dropWhile isWS := by
        rw [List.dropWhile_cons, if_pos hd]
      cases b
      · rw [collapseWS_cons_ws_false d tail hd, h1, List.dropWhile_cons,
          if_pos (by decide : isWS ' ' = true)]
        exact ih true
      · rw [collapseWS_cons_ws_true d tail hd, h1]
        exact ih true
    · have hdf : isWS d = false := Bool.eq_false_iff.mpr hd
      rw [collapseWS_cons_not_ws b d tail hdf, List.dropWhile_cons, List.dropWhile_cons,
        if_neg hd, if_neg hd, collapseWS_cons_not_ws true d tail hdf]

theorem dropWhile_head_not_ws (l : List Char) (c : Char) (rest : List Char)
    (h : l.dropWhile isWS = c :: rest) : isWS c = false := by
  induction l with
  | nil => cases h
  | cons d tail ih =>
    rw [List.dropWhile_cons] at h
    split at h
    · exact ih h
    · rename_i hd
      cases h
      exact Bool.eq_false_iff.mpr hd

theorem dropTrail_collapseWS (b : Bool) (l : List Char) :
    dropTrail (collapseWS b l) = collapseWS b (dropTrail l) := by
  induction l generalizing b with
  | nil => rfl
  | cons d tail ih =>
    by_cases hd : isWS d = true
    · by_cases he : dropTrail tail = []
      · have hdt : dropTrail (d :: tail) = [] := by
          rw [dropTrail_cons, if_pos (by rw [he, hd]; rfl)]
        rw [hdt]
        cases b
        · rw [collapseWS_cons_ws_false d tail hd, dropTrail_cons, ih true, he,
            if_pos (by decide)]
          rfl
        · rw [collapseWS_cons_ws_true d tail hd, ih true, he]
      · have hie : (dropTrail tail).isEmpty = false := List.isEmpty_eq_false.mpr he
        have hne : dropTrail (d :: tail) = d :: dropTrail tail := by
          rw [dropTrail_cons, hie]
          simp
        rw [hne]
        rcases dropTrail_ne_nil_mem tail he with ⟨c, hc, hwc⟩
        have hcne : collapseWS true (dropTrail tail) ≠ [] :=
          collapseWS_ne_nil true (dropTrail tail) c hwc hc
        have hcie : (collapseWS true (dropTrail tail)).isEmpty = false :=
          List.isEmpty_eq_false.mpr hcne
        cases b
        · rw [collapseWS_cons_ws_false d tail hd, dropTrail_cons, ih true, hcie,
            collapseWS_cons_ws_false d (dropTrail tail) hd]
          simp
        · rw [collapseWS_cons_ws_true d tail hd, ih true,
            collapseWS_cons_ws_true d (dropTrail tail) hd]
    · have hdf : isWS d = false := Bool.eq_false_iff.mpr hd
      have hne : dropTrail (d :: tail) = d :: dropTrail tail := by
        rw [dropTrail_cons, hdf]
        simp
      rw [hne, collapseWS_cons_not_ws b d tail hdf,
        collapseWS_cons_not_ws b d (dropTrail tail) hdf, dropTrail_cons, ih false, hdf]
      simp

theorem stripWS_collapseWS (l : List Char) :
    collapseWS false (stripWS l) = stripWS (collapseWS false l) := by
  unfold stripWS
  rw [dropWhile_collapseWS false l]
  rcases hm : l.dropWhile isWS with _ | ⟨c, rest⟩
  · rfl
  · have hcf : isWS c = false := dropWhile_head_not_ws l c rest hm
    rw [collapseWS_cons_not_ws true c rest hcf, ← collapseWS_cons_not_ws false c rest hcf]
    exact (dropTrail_collapseWS false (c :: rest)).symm

/-- C9: normalize_text is total, maps non-string and empty input to the
empty string, and on every other string produces exactly the
specification result: the string lowercased, with every whitespace run
collapsed to one space, and with leading and trailing whitespace removed. -/
theorem c9_normalize_total_and_spec :
    normalize_text_dyn PyVal.nonstr = ("") ∧
    normalize_text_dyn (PyVal.str ("")) = ("") ∧
    ∀ s : String, normalize_text s = normalizeSpec s := by
  refine ⟨rfl, rfl, fun s => ?_⟩
  exact congrArg String.mk (stripWS_collapseWS (s.data.map lowerChar))

/-
Lemmas for idempotence of normalization.
-/

theorem isEmpty_map_lowerChar (l : List Char) : (l.map lowerChar).isEmpty = l.isEmpty := by
  cases l <;> rfl

theorem map_lowerChar_collapseWS (b : Bool) (l : List Char) :
    (collapseWS b l).map lowerChar = collapseWS b (l.map lowerChar) := by
  induction l generalizing b with
  | nil => rfl
  | cons d tail ih =>
    by_cases hd : isWS d = true
    · have hld : isWS (lowerChar d) = true := by rw [isWS_lowerChar]; exact hd
      cases b
      · rw [collapseWS_cons_ws_false d tail hd, List.map_cons, lowerChar_space,
          List.map_cons, collapseWS_cons_ws_false (lowerChar d) _ hld, ih true]
      · rw [collapseWS_cons_ws_true d tail hd, List.map_cons,
          collapseWS_cons_ws_true (lowerChar d) _ hld]
        exact ih true
    · have hdf : isWS d = false := Bool.eq_false_iff.mpr hd
      have hldf : isWS (lowerChar d) = false := by rw [isWS_lowerChar]; exact hdf
      rw [collapseWS_cons_not_ws b d tail hdf, List.map_cons, List.map_cons,
        collapseWS_cons_not_ws b (lowerChar d) _ hldf, ih false]

theorem map_lowerChar_dropWhile (l : List Char) :
    (l.dropWhile isWS).map lowerChar = (l.map lowerChar).dropWhile isWS := by
  induction l with
  | nil => rfl
  | cons d tail ih =>
    rw [List.map_cons, List.dropWhile_cons, List.dropWhile_cons]
    by_cases hd : isWS d = true
    · rw [if_pos hd, if_pos (by rw [isWS_lowerChar]; exact hd)]
      exact ih
    · rw [if_neg hd, if_neg (by rw [isWS_lowerChar]; exact hd), List.map_cons]

theorem map_lowerChar_dropTrail (l : List Char) :
    (dropTrail l).map lowerChar = dropTrail (l.map lowerChar) := by
  induction l with
  | nil => rfl
  | cons d tail ih =>
    rw [List.map_cons, dropTrail_cons, dropTrail_cons, ← ih, isWS_lowerChar,
      isEmpty_map_lowerChar]
    by_cases hcond : ((dropTrail tail).isEmpty && isWS d) = true
    · rw [if_pos hcond, if_pos hcond]
      rfl
    · rw [if_neg hcond, if_neg hcond, List.map_cons]

theorem map_lowerChar_stripWS (l : List Char) :
    (stripWS l).map lowerChar = stripWS (l.map lowerChar) := by
  unfold stripWS
  rw [map_lowerChar_dropTrail, map_lowerChar_dropWhile]

theorem map_lowerChar_twice (l : List Char) :
    (l.map lowerChar).map lowerChar = l.map lowerChar := by
  rw [List.map_map]
  exact List.map_congr_left fun a _ => lowerChar_idem a

theorem map_lowerChar_normChars (l : List Char) :
    (normChars l).map lowerChar = normChars l := by
  unfold normChars
  rw [map_lowerChar_collapseWS, map_lowerChar_stripWS, map_lowerChar_twice]

theorem collapseWS_idem (b : Bool) (l : List Char) :
    collapseWS b (collapseWS b l) = collapseWS b l := by
  induction l generalizing b with
  | nil => rfl
  | cons d tail ih =>
    by_cases hd : isWS d = true
    · cases b
      · rw [collapseWS_cons_ws_false d tail hd,
          collapseWS_cons_ws_false ' ' _ (by decide), ih true]
      · rw [collapseWS_cons_ws_true d tail hd]
        exact ih true
    · have hdf : isWS d = false := Bool.eq_false_iff.mpr hd
      rw [collapseWS_cons_not_ws b d tail hdf,
        collapseWS_cons_not_ws b d (collapseWS false tail) hdf, ih false]

theorem dropWhile_stripWS (l : List Char) :
    (stripWS l).dropWhile isWS = stripWS l := by
  unfold stripWS
  rcases hm : l.dropWhile isWS with _ | ⟨c, rest⟩
  · rfl
  · have hcf : isWS c = false := dropWhile_head_not_ws l c rest hm
    rw [dropTrail_cons]
    by_cases hcond : ((dropTrail rest).isEmpty && isWS c) = true
    · rw [if_pos hcond]
      rfl
    · rw [if_neg hcond, List.dropWhile_cons,
        if_neg (by rw [hcf]; exact Bool.false_ne_true)]

theorem stripWS_idem (l : List Char) : stripWS (stripWS l) = stripWS l := by
  show dropTrail ((stripWS l).dropWhile isWS) = stripWS l
  rw [dropWhile_stripWS]
  show dropTrail (dropTrail (l.dropWhile isWS)) = stripWS l
  rw [dropTrail_idem]
  rfl

theorem normChars_idem (l : List Char) : normChars (normChars l) = normChars l := by
  have hnc : normChars l = stripWS (collapseWS false (l.map lowerChar)) :=
    stripWS_collapseWS (l.map lowerChar)
  show collapseWS false (stripWS ((normChars l).map lowerChar)) = normChars l
  rw [map_lowerChar_normChars, hnc, stripWS_idem, stripWS_collapseWS, collapseWS_idem false]

theorem normalize_text_idem (s : String) :
    normalize_text (normalize_text s) = normalize_text s :=
  congrArg String.mk (normChars_idem s.data)

theorem tokenFinset_normalize (e : String) :
    tokenFinset (normalize_text e) = tokenFinset e := by
  unfold tokenFinset
  rw [normalize_text_idem]

theorem calculate_similarity_normalize (e t : String) :
    calculate_similarity (normalize_text e) t = calculate_similarity e t := by
  unfold calculate_similarity
  simp only [tokenFinset_normalize]

theorem rowScore_normalize (e : String) (r : ClassificationRow) :
    rowScore (normalize_text e) r = rowScore e r := by
  unfold rowScore
  simp only [calculate_similarity_normalize]

theorem fbmLoop_normalize (e : String) (rows : List ClassificationRow)
    (best : Option ClassificationRow) (m : ℚ) :
    fbmLoop (normalize_text e) rows best m = fbmLoop e rows best m := by
  induction rows generalizing best m with
  | nil => rfl
  | cons r rest ih =>
    simp only [fbmLoop, rowScore_normalize]
    split
    · exact ih _ _
    · exact ih _ _

/-- C10: normalization is idempotent, and therefore find_best_match, which
normalizes the entry once before the loop, computes exactly what the same
loop computes when every comparison receives the raw entry name and
normalizes it itself. -/
theorem c10_normalize_idempotent_scores :
    (∀ s : String, normalize_text (normalize_text s) = normalize_text s) ∧
    ∀ (entry : String) (table : List ClassificationRow),
      find_best_match entry table = find_best_match_raw entry table := by
  refine ⟨normalize_text_idem, fun entry table => ?_⟩
  unfold find_best_match find_best_match_raw
  exact fbmLoop_normalize entry table none 0
